import Mathlib

/-!
Verification of the codemirror-textmate core: a shallow embedding of the
grammar registry, the scope-classification engine and the rebind coordinator
(src/unnamed/part_000 to part_002), with theorems settling the frozen claims
about injection management, language activation, the tokenizer closure, the
classification paths and the per-editor rebind queue.
-/

namespace CT

/-- A JavaScript value as far as argument validation is concerned: either a
string or some non-string value. -/
inductive JsVal where
  | str (s : String)
  | other
deriving DecidableEq

/-- A JavaScript argument that may fail the Array.isArray check. -/
inductive JsArg where
  | arr (xs : List JsVal)
  | notArray
deriving DecidableEq

/-- Array.isArray(a) and a.every(x => typeof x === 'string'), the validation
used by linkInjections and unlinkInjections. -/
def isStringArray : JsArg → Bool
  | .arr xs => xs.all fun v => match v with | .str _ => true | .other => false
  | .notArray => false

/-- The strings carried by a JsArg (meaningful when isStringArray holds). -/
def argStrings : JsArg → List String
  | .arr xs => xs.filterMap fun v => match v with | .str s => some s | .other => none
  | .notArray => []

/-- JS Map.get on an insertion-ordered association list. -/
def mapGet {κ α : Type} [BEq κ] : List (κ × α) → κ → Option α
  | [], _ => none
  | (k', v) :: rest, k => if k' == k then some v else mapGet rest k

/-- JS Map.has. -/
def mapHas {κ α : Type} [BEq κ] (m : List (κ × α)) (k : κ) : Bool :=
  (mapGet m k).isSome

/-- JS Map.set: update the value in place when the key is present (its
insertion position is kept), append the pair otherwise. -/
def mapSet {κ α : Type} [BEq κ] : List (κ × α) → κ → α → List (κ × α)
  | [], k, v => [(k, v)]
  | (k', v') :: rest, k, v =>
      if k' == k then (k', v) :: rest else (k', v') :: mapSet rest k v

/-- JS Map.delete (also WeakMap.delete). -/
def mapDelete {κ α : Type} [BEq κ] (m : List (κ × α)) (k : κ) : List (κ × α) :=
  m.filter fun e => !(e.1 == k)

/-- JS Set.add on an insertion-ordered duplicate-free list. -/
def setAdd (s : List String) (x : String) : List String :=
  if s.contains x then s else s ++ [x]

/-- JS Set.delete. -/
def setDelete (s : List String) (x : String) : List String :=
  s.filter fun y => !(y == x)

/-- Error conditions raised synchronously by the registry operations
(part_000: the TypeError of linkInjections/unlinkInjections and the two
Error throws of activateLanguage). -/
inductive TmError where
  | invalidArgument
  | unknownScope (scopeName : String)
  | duplicateBinding (languageId : String) (boundScope : String)
deriving DecidableEq

/-- The static state of Highlighter (part_000 lines 125-129).  Grammar source
values are opaque to every claim, so scopeNameToRawGrammars is modelled by its
key set; registryLive records whether the Registry instance is non-null. -/
structure RegistryState where
  scopeNameToInjections : List (String × List String)
  scopeNameToRawGrammars : List String
  scopeNameToLanguageId : List (String × String)
  languageIdToScopeName : List (String × String)
  registryLive : Bool
deriving DecidableEq

/-- One forEach iteration of Highlighter.linkInjections (part_000 lines
36-45): add the injected scope to this host's set (creating the set when
absent) and record the language id bound to the host, if any. -/
def linkStep (scopeName : String) (langMap : List (String × String))
    (acc : List (String × List String) × List String) (scope : String) :
    List (String × List String) × List String :=
  let m := match mapGet acc.1 scope with
    | some lst => mapSet acc.1 scope (setAdd lst scopeName)
    | none => mapSet acc.1 scope (setAdd [] scopeName)
  let aff := match mapGet langMap scope with
    | some lid => setAdd acc.2 lid
    | none => acc.2
  (m, aff)

/-- Highlighter.linkInjections (part_000 lines 31-49): validate the host
list, add scopeName to each host's injection set, purge the registry and
return the distinct affected language ids.  The state is returned unchanged
when the TypeError is thrown (the throw precedes every mutation). -/
def linkInjections (scopeName : String) (injectInto : JsArg) (st : RegistryState) :
    Except TmError (List String) × RegistryState :=
  if !(isStringArray injectInto) then (.error .invalidArgument, st)
  else
    let r := (argStrings injectInto).foldl
      (linkStep scopeName st.scopeNameToLanguageId) (st.scopeNameToInjections, [])
    (.ok r.2, { st with scopeNameToInjections := r.1, registryLive := false })

/-- One forEach iteration of Highlighter.unlinkInjections with no host list
(part_000 lines 62-69): where the host's set has scopeName, record the bound
language id and delete scopeName from the set. -/
def unlinkStepAll (scopeName : String) (langMap : List (String × String))
    (acc : List (String × List String) × List String) (e : String × List String) :
    List (String × List String) × List String :=
  if e.2.contains scopeName then
    let aff := match mapGet langMap e.1 with
      | some lid => setAdd acc.2 lid
      | none => acc.2
    (acc.1 ++ [(e.1, setDelete e.2 scopeName)], aff)
  else (acc.1 ++ [e], acc.2)

/-- One forEach iteration of Highlighter.unlinkInjections with a host list
(part_000 lines 73-80): only hosts named in the list are touched. -/
def unlinkStepSome (scopeName : String) (hosts : List String)
    (langMap : List (String × String))
    (acc : List (String × List String) × List String) (e : String × List String) :
    List (String × List String) × List String :=
  if hosts.contains e.1 && e.2.contains scopeName then
    let aff := match mapGet langMap e.1 with
      | some lid => setAdd acc.2 lid
      | none => acc.2
    (acc.1 ++ [(e.1, setDelete e.2 scopeName)], aff)
  else (acc.1 ++ [e], acc.2)

/-- Highlighter.unlinkInjections (part_000 lines 56-85).  The early guard
looks scopeName up among the keys of scopeNameToInjections, which are host
scope names; on that guard the function returns undefined (modelled none)
and mutates nothing.  Note the guard is checked before the host-list
validation. -/
def unlinkInjections (scopeName : String) (injections : Option JsArg)
    (st : RegistryState) :
    Except TmError (Option (List String)) × RegistryState :=
  if !(mapHas st.scopeNameToInjections scopeName) then (.ok none, st)
  else match injections with
  | none =>
      let r := st.scopeNameToInjections.foldl
        (unlinkStepAll scopeName st.scopeNameToLanguageId) ([], [])
      (.ok (some r.2), { st with scopeNameToInjections := r.1, registryLive := false })
  | some arg =>
      if !(isStringArray arg) then (.error .invalidArgument, st)
      else
        let r := st.scopeNameToInjections.foldl
          (unlinkStepSome scopeName (argStrings arg) st.scopeNameToLanguageId) ([], [])
        (.ok (some r.2), { st with scopeNameToInjections := r.1, registryLive := false })

/-- Highlighter.loadLanguage (part_000 lines 110-119).  The engine call
registry.loadGrammar(scopeName) is external; the model returns the scope name
handed to the engine.  The JS guard (!scopeName) is also true of the empty
string, and the registry is lazily initialized only on the successful path.
The source path has no throw, so the embedding is a total function. -/
def loadLanguage (languageId : String) (st : RegistryState) :
    Option String × RegistryState :=
  match mapGet st.languageIdToScopeName languageId with
  | none => (none, st)
  | some scopeName =>
      if scopeName == "" || !(st.scopeNameToRawGrammars.contains scopeName) then
        (none, st)
      else (some scopeName, { st with registryLive := true })

/-- The load-priority argument of activateLanguage. -/
inductive Load where
  | now
  | asap
  | defer
deriving DecidableEq, BEq

/-- Highlighter.activateLanguage (part_000 lines 87-108): guard the unknown
scope, then guard the duplicate language id, then record both bindings; with
now the language is loaded before resolving, with asap it is loaded after the
requestIdle wait (the wait is timing and not modelled; the promise still
resolves the same value), with defer nothing else happens.  The Bool is the
promise's resolved value; on a throw the state is returned unchanged (both
throws precede every mutation). -/
def activateLanguage (scopeName languageId : String) (load : Load)
    (st : RegistryState) : Except TmError Bool × RegistryState :=
  if !(st.scopeNameToRawGrammars.contains scopeName) then
    (.error (.unknownScope scopeName), st)
  else match mapGet st.languageIdToScopeName languageId with
  | some bound => (.error (.duplicateBinding languageId bound), st)
  | none =>
      let st1 := { st with
        languageIdToScopeName := mapSet st.languageIdToScopeName languageId scopeName,
        scopeNameToLanguageId := mapSet st.scopeNameToLanguageId scopeName languageId }
      match load with
      | .now => (.ok true, (loadLanguage languageId st1).2)
      | .asap => (.ok true, (loadLanguage languageId st1).2)
      | .defer => (.ok false, st1)

/-- The parts of a CodeMirror StringStream the tokenizer closure touches. -/
structure TStream where
  pos : Nat
  str : String
deriving DecidableEq

/-- A token produced by the external grammar engine: end offset and scope
stack (innermost scope last). -/
structure TmToken where
  endIndex : Nat
  scopes : List String
deriving DecidableEq

/-- IHighlighterState (part_000 lines 8-11); the rule stack is opaque engine
state. -/
structure HighlighterState (RS : Type) where
  ruleStack : RS
  tokensCache : List TmToken

/-- stream.eatWhile(() => stream.pos < endIndex): eat characters while before
endIndex and not at end of line, so the position lands at
min endIndex length when it starts below endIndex and is unchanged
otherwise. -/
def eatWhilePos (pos endIndex len : Nat) : Nat :=
  if pos < endIndex then min endIndex len else pos

/-- The three outputs of one invocation of the tokenizer closure: the
returned classification (null modelled none), the advanced stream and the
updated mutable state. -/
structure TokenizerOut (RS : Type) where
  result : Option String
  stream : TStream
  state : HighlighterState RS

/-- The closure returned by Highlighter.getTokenizer (part_000 lines
188-208), parameterized by the compiled grammar's tokenizeLine and by the
scope-stack classifier the theme branch selects: at position 0 the whole line
is tokenized with the carried rule stack and the token list and new rule
stack are stored; then one token is shifted from the cache — when the cache
is empty the stream skips to end of line and null is returned, otherwise the
stream eats up to the token's end offset and the token's classification is
returned. -/
def tokenizerStep {RS : Type} (tokenizeLine : String → RS → RS × List TmToken)
    (classify : List String → Option String)
    (stream : TStream) (state : HighlighterState RS) : TokenizerOut RS :=
  let st1 : HighlighterState RS :=
    if stream.pos = 0 then
      let r := tokenizeLine stream.str state.ruleStack
      { ruleStack := r.1, tokensCache := r.2 }
    else state
  match st1.tokensCache with
  | [] =>
      { result := none
        stream := { stream with pos := stream.str.length }
        state := st1 }
  | nextToken :: rest =>
      { result := classify nextToken.scopes
        stream := { stream with
          pos := eatWhilePos stream.pos nextToken.endIndex stream.str.length }
        state := { st1 with tokensCache := rest } }

/-- The CodeMirror token classes (part_001 lines 5-30). -/
inductive CmToken where
  | Atom | Attribute | Bracket | Builtin | Comment | Def | Error | Header | HR
  | Keyword | Link | Meta | Number | Operator | Property | Qualifier | Quote
  | String | String2 | Tag | Type | Variable | Variable2 | Variable3
deriving DecidableEq

/-- A node of the tmToCm classification tree: either a bare CmToken value
(keyword.other.special-method is written that way in the source) or an object
with an optional default classification and named children. -/
inductive TmNode where
  | leaf (t : CmToken)
  | node (d : Option CmToken) (children : List (String × TmNode))

/-- node.$ — undefined on a bare CmToken value. -/
def nodeDefault : TmNode → Option CmToken
  | .leaf _ => none
  | .node d _ => d

/-- tree[first] — property lookup, undefined on a bare value (a string's own
properties carry no classification, so reading them as absent is
observationally faithful to walk's result). -/
def childLookup : TmNode → String → Option TmNode
  | .leaf _, _ => none
  | .node _ cs, s => mapGet cs s

/-- The tmToCm classification tree (part_001 lines 133-280). -/
def tmToCm : TmNode :=
  .node none [
    ("comment", .node (some .Comment) []),
    ("constant", .node (some .Def) [
      ("character", .node none [("escape", .node (some .String2) [])]),
      ("language", .node (some .Atom) []),
      ("numeric", .node (some .Number) []),
      ("other", .node none [
        ("email", .node none [("link", .node (some .Link) [])]),
        ("symbol", .node (some .Def) [])])]),
    ("entity", .node none [
      ("name", .node none [
        ("class", .node (some .Def) []),
        ("function", .node (some .Def) []),
        ("tag", .node (some .Tag) []),
        ("type", .node (some .Type) [("class", .node (some .Variable) [])])]),
      ("other", .node none [
        ("attribute-name", .node (some .Attribute) []),
        ("inherited-class", .node (some .Def) [])]),
      ("support", .node none [("function", .node (some .Def) [])])]),
    ("keyword", .node (some .Keyword) [
      ("operator", .node (some .Operator) []),
      ("other", .node none [("special-method", .leaf .Def)])]),
    ("punctuation", .node (some .Operator) [
      ("definition", .node none [
        ("comment", .node (some .Comment) []),
        ("tag", .node (some .Bracket) [])])]),
    ("storage", .node (some .Keyword) []),
    ("string", .node (some .String) [("regexp", .node (some .String2) [])]),
    ("support", .node none [
      ("class", .node (some .Def) []),
      ("constant", .node (some .Variable2) []),
      ("function", .node (some .Def) []),
      ("type", .node (some .Type) []),
      ("variable", .node (some .Variable2) [("property", .node (some .Property) [])])]),
    ("variable", .node (some .Def) [
      ("language", .node (some .Variable3) []),
      ("other", .node none [
        ("object", .node (some .Variable) [("property", .node (some .Property) [])]),
        ("property", .node (some .Property) [])]),
      ("parameter", .node (some .Def) [])])]

/-- walk (part_001 lines 282-289): shift the first segment, look it up in the
tree, prefer the recursive result and fall back to the child's default; no
segment or no child gives null. -/
def walk (segs : List String) (tree : TmNode) : Option CmToken :=
  match segs with
  | [] => none
  | s :: rest =>
      match childLookup tree s with
      | some n => (walk rest n).orElse fun _ => nodeDefault n
      | none => none

/-- scope.split(/\./) on the model of a JS string as its character list
(String.splitOn is the same function but does not reduce in the kernel, so
the split is spelled out). -/
def splitDotsAux : List Char → List Char → List String
  | [], acc => [String.mk acc.reverse]
  | c :: rest, acc =>
      if c = '.' then String.mk acc.reverse :: splitDotsAux rest []
      else splitDotsAux rest (c :: acc)

/-- scope.split(/\./). -/
def splitDots (s : String) : List String := splitDotsAux s.data []

/-- The classification tmScopeToCmToken computes on a cache miss (part_001
line 295): walk the dot-separated segments of the scope. -/
def classifyScope (scope : String) : Option CmToken :=
  walk (splitDots scope) tmToCm

/-- An lru-cache instance: entries most-recent first, capacity max. -/
structure LruCache where
  entries : List (String × Option CmToken)
  max : Nat
deriving DecidableEq

/-- lru-cache has(key): a presence check, recency untouched. -/
def LruCache.hasKey (c : LruCache) (k : String) : Bool :=
  (mapGet c.entries k).isSome

/-- lru-cache set(key, value): the key becomes most recent; entries beyond
the capacity are evicted from the least-recent end. -/
def LruCache.setKey (c : LruCache) (k : String) (v : Option CmToken) : LruCache :=
  { c with entries := ((k, v) :: mapDelete c.entries k).take c.max }

/-- lru-cache get(key): the stored value when present, with the key refreshed
to most recent. -/
def LruCache.getKey (c : LruCache) (k : String) :
    Option (Option CmToken) × LruCache :=
  match mapGet c.entries k with
  | none => (none, c)
  | some v => (some v, { c with entries := (k, v) :: mapDelete c.entries k })

/-- tmScopeToCmToken (part_001 lines 291-298): memoized classification
through the LRU cache — on a miss the walk result is stored, then cache.get
is returned (none both for a stored null and for the unreachable miss after
a set). -/
def tmScopeToCmToken (scope : String) (cache : LruCache) :
    Option CmToken × LruCache :=
  let c1 := if cache.hasKey scope then cache
    else cache.setKey scope (classifyScope scope)
  match c1.getKey scope with
  | (some v, c2) => (v, c2)
  | (none, c2) => (none, c2)

/-- The cache as created in part_001 line 292: new LRU({ max: 2000 }). -/
def freshCache : LruCache := { entries := [], max := 2000 }

/-- Every cached value is the classification walk would compute — true of the
fresh cache and preserved by every call. -/
def Coherent (c : LruCache) : Prop :=
  ∀ e ∈ c.entries, e.2 = classifyScope e.1

/-- A runtime failure escaping the classification loops (undefined.split, or
the external theme matcher applied to undefined). -/
inductive JsError where
  | typeError
deriving DecidableEq

/-- The do-while of Highlighter.tmScopeToCmToken (part_000 lines 211-218)
parameterized by the classifier applied at scopes[i].  The Nat argument n
stands for the loop about to run its body at index i = n - 1, with n = 0
standing for i = -1, where scopes[-1] is undefined (the none input).  The
loop repeats while the classifier returned null and the decremented index is
still non-negative. -/
def scanCmAux (f : Option String → Except JsError (Option CmToken))
    (scopes : List String) : Nat → Except JsError (Option CmToken)
  | 0 => f none
  | 1 => f scopes[0]?
  | n + 2 =>
      match f scopes[n + 1]? with
      | .error e => .error e
      | .ok (some t) => .ok (some t)
      | .ok none => scanCmAux f scopes (n + 1)

/-- tm-<foreground> with the fontStyle suffix (part_000 lines 226-233): 1
appends " em", 2 appends " strong", anything else leaves the base name. -/
def themedToken (fg fs : Int) : String :=
  let base := "tm-" ++ toString fg
  if fs = 0 then base
  else if fs = 1 then base ++ " em"
  else if fs = 2 then base ++ " strong"
  else base

/-- The do-while of Highlighter.tmScopeToTmThemeToken (part_000 lines
220-237), parameterized by the theme matcher giving theme.match(scope)[0] as
a (foreground, fontStyle) pair; a token is produced only when the foreground
color index is positive. -/
def scanThemeAux (mf : Option String → Except JsError (Int × Int))
    (scopes : List String) : Nat → Except JsError (Option String)
  | 0 =>
      match mf none with
      | .error e => .error e
      | .ok p => .ok (if p.1 > 0 then some (themedToken p.1 p.2) else none)
  | 1 =>
      match mf scopes[0]? with
      | .error e => .error e
      | .ok p => .ok (if p.1 > 0 then some (themedToken p.1 p.2) else none)
  | n + 2 =>
      match mf scopes[n + 1]? with
      | .error e => .error e
      | .ok p =>
          if p.1 > 0 then .ok (some (themedToken p.1 p.2))
          else scanThemeAux mf scopes (n + 1)

/-- Highlighter.tmScopeToCmToken (part_000 lines 211-218): the do-while
entered at i = scopes.length - 1. -/
def hlTmScopeToCmToken (f : Option String → Except JsError (Option CmToken))
    (scopes : List String) : Except JsError (Option CmToken) :=
  scanCmAux f scopes scopes.length

/-- Highlighter.tmScopeToTmThemeToken (part_000 lines 220-237): the do-while
entered at i = scopes.length - 1. -/
def hlTmScopeToTmThemeToken (mf : Option String → Except JsError (Int × Int))
    (scopes : List String) : Except JsError (Option String) :=
  scanThemeAux mf scopes scopes.length

/-- The module-level classifier as applied at a stack entry: at undefined
(the scopes[-1] read) the first step of tmScopeToCmToken, scope.split, is a
runtime type failure; at a string it computes the walk value (the theorem
for C9 shows the cache never changes that value). -/
def classifyEntry : Option String → Except JsError (Option CmToken)
  | none => .error .typeError
  | some s => .ok (classifyScope s)

/-- Spec-side reading of the theme-less path: scan the stack innermost scope
first and take the first non-null classification. -/
def specCmScan (scopes : List String) : Option CmToken :=
  scopes.reverse.findSome? classifyScope

/-- Spec-side reading of the themed path: the first scope, innermost first,
whose match has a positive foreground index gives tm-<index> plus the style
suffix. -/
def specThemeScan (m : String → Int × Int) (scopes : List String) :
    Option String :=
  scopes.reverse.findSome? fun s =>
    if (m s).1 > 0 then some (themedToken (m s).1 (m s).2) else none

/-- The in-flight updateCmTmBindings activation as safeUpdateCM sees it
(part_002): the editor it runs for, the cooperative cancellation flag set by
currentActivation.cancel(), and the resolver callback proceed captured before
its await (part_002 line 183). -/
structure ActiveRec where
  editor : Nat
  canceled : Bool
  capturedResolver : Option Nat
deriving DecidableEq

/-- The state of the safeUpdateCM closure (part_002 lines 173-215) plus the
promises it hands out: the FIFO queue of editor instances, the
resolverCallbacks WeakMap (editor to promise id), the single in-flight
activation, a fresh-promise counter, the settled promises with their values,
and the count of bindings actually installed by defineMode. -/
structure CoordState where
  queue : List Nat
  resolverOf : List (Nat × Nat)
  current : Option ActiveRec
  nextPromId : Nat
  resolved : List (Nat × Bool)
  appliedCount : Nat
deriving DecidableEq

/-- Calling a promise's resolve callback: a no-op when the promise has
already settled. -/
def resolveProm (s : CoordState) (p : Option Nat) (v : Bool) : CoordState :=
  match p with
  | none => s
  | some pid =>
      if (mapGet s.resolved pid).isSome then s
      else { s with resolved := mapSet s.resolved pid v }

/-- proceed() up to its await (part_002 lines 177-184): read the queue head,
start updateCmTmBindings for it (the activation suspends at the awaited
tokenizer acquisition) and capture that editor's resolver callback. -/
def proceedStart (s : CoordState) : CoordState :=
  match s.queue.head? with
  | none => s
  | some cmId =>
      let r : ActiveRec :=
        { editor := cmId, canceled := false
          capturedResolver := mapGet s.resolverOf cmId }
      { s with current := some r }

/-- One call of safeUpdateCM(cm) (part_002 lines 191-214), returning the new
state and the promise handed to the caller: when the instance is the queue
head with an activation in flight, cancel it, resolve the previous caller's
promise false and move the instance to the tail; push the instance unless
already queued; register a fresh promise's resolver (overwriting any previous
registration); start proceed only when no activation is in flight. -/
def safeEnqueue (cmId : Nat) (s0 : CoordState) : CoordState × Nat :=
  let s1 :=
    if s0.queue.head? = some cmId ∧ s0.current.isSome then
      let prevResolver := mapGet s0.resolverOf cmId
      let s := { s0 with
        current := s0.current.map fun r => { r with canceled := true }
        resolverOf := mapDelete s0.resolverOf cmId
        queue := s0.queue.tail ++ [cmId] }
      resolveProm s prevResolver false
    else s0
  let s2 := if s1.queue.contains cmId then s1
    else { s1 with queue := s1.queue ++ [cmId] }
  let pid := s2.nextPromId
  let s3 := { s2 with
    resolverOf := mapSet s2.resolverOf cmId pid
    nextPromId := pid + 1 }
  let s4 := if s3.current.isNone then proceedStart s3 else s3
  (s4, pid)

/-- The in-flight activation settles and the proceed continuation after the
await runs (part_002 lines 156-165 and 184-188).  The activation models the
tokenizer-acquisition path of updateCmTmBindings for a registered language:
canceled while awaiting getTokenizer resolves false without installing,
otherwise defineMode installs the binding and it resolves true.  The
continuation then calls the captured resolver with that value, deletes the
editor's resolverCallbacks entry, shifts the queue, clears currentActivation
and re-enters proceed. -/
def settleCurrent (s0 : CoordState) : CoordState :=
  match s0.current with
  | none => s0
  | some rec =>
      let result := !rec.canceled
      let s1 := if result then { s0 with appliedCount := s0.appliedCount + 1 }
        else s0
      let s2 := resolveProm s1 rec.capturedResolver result
      let s3 := { s2 with
        resolverOf := mapDelete s2.resolverOf rec.editor
        queue := s2.queue.tail
        current := none }
      proceedStart s3

/-- Registry state with grammars registered for source.js and styled and the
language id javascript bound to source.js, before any injection. -/
def c1st0 : RegistryState :=
  { scopeNameToInjections := []
    scopeNameToRawGrammars := ["source.js", "styled"]
    scopeNameToLanguageId := [("source.js", "javascript")]
    languageIdToScopeName := [("javascript", "source.js")]
    registryLive := true }

/-- The state after linkInjections("styled", ["source.js"]) from c1st0. -/
def c1st1 : RegistryState :=
  { c1st0 with
    scopeNameToInjections := [("source.js", ["styled"])]
    registryLive := false }

/-- Registry state with only the source.js grammar registered and no language
bound. -/
def c2st : RegistryState :=
  { scopeNameToInjections := []
    scopeNameToRawGrammars := ["source.js"]
    scopeNameToLanguageId := []
    languageIdToScopeName := []
    registryLive := false }

/-- Registry state with the language id javascript already bound to
source.js. -/
def c5st : RegistryState :=
  { scopeNameToInjections := []
    scopeNameToRawGrammars := ["source.js"]
    scopeNameToLanguageId := [("source.js", "javascript")]
    languageIdToScopeName := [("javascript", "source.js")]
    registryLive := false }

/-- The empty registry state. -/
def c7st : RegistryState :=
  { scopeNameToInjections := []
    scopeNameToRawGrammars := []
    scopeNameToLanguageId := []
    languageIdToScopeName := []
    registryLive := false }

/-- The coordinator before any call: empty queue, no activation. -/
def c3s0 : CoordState :=
  { queue := [], resolverOf := [], current := none, nextPromId := 0
    resolved := [], appliedCount := 0 }

/-- First safeUpdateCM(cm) call: the instance is queued and its activation
starts and suspends at the tokenizer await. -/
def c3afterFirst : CoordState × Nat := safeEnqueue 0 c3s0

/-- Second safeUpdateCM(cm) call while the first activation is in flight. -/
def c3afterSecond : CoordState × Nat := safeEnqueue 0 c3afterFirst.1

/-- The canceled first activation settles and the proceed continuation
runs. -/
def c3final : CoordState := settleCurrent c3afterSecond.1

/-- The injection map records scopeName inside host h's injection set. -/
def HasInj (m : List (String × List String)) (scopeName h : String) : Prop :=
  ∃ lst, mapGet m h = some lst ∧ scopeName ∈ lst

instance {ε α : Type} [DecidableEq ε] [DecidableEq α] :
    DecidableEq (Except ε α) := fun a b =>
  match a, b with
  | .ok x, .ok y =>
      if h : x = y then .isTrue (congrArg Except.ok h)
      else .isFalse fun hh => h (Except.ok.inj hh)
  | .error x, .error y =>
      if h : x = y then .isTrue (congrArg Except.error h)
      else .isFalse fun hh => h (Except.error.inj hh)
  | .ok _, .error _ => .isFalse fun hh => Except.noConfusion hh
  | .error _, .ok _ => .isFalse fun hh => Except.noConfusion hh

theorem contains_false_not_mem {l : List String} {a : String}
    (h : l.contains a = false) : a ∉ l := by
  intro hm
  rw [List.contains, List.elem_eq_true_of_mem hm] at h
  exact Bool.noConfusion h

theorem mapGet_mapSet {κ α : Type} [BEq κ] [LawfulBEq κ]
    (m : List (κ × α)) (k k' : κ) (v : α) :
    mapGet (mapSet m k v) k' = if k' == k then some v else mapGet m k' := by
  induction m with
  | nil =>
      by_cases h : k' = k
      · subst h; simp [mapSet, mapGet]
      · simp [mapSet, mapGet, h, Ne.symm h]
  | cons e rest ih =>
      obtain ⟨ek, ev⟩ := e
      by_cases hek : ek = k
      · subst hek
        by_cases h : k' = ek
        · subst h; simp [mapSet, mapGet]
        · simp [mapSet, mapGet, h, Ne.symm h]
      · by_cases h : k' = k
        · subst h
          simp [mapSet, mapGet, hek, Ne.symm hek, ih]
        · by_cases he : ek = k'
          · subst he
            simp [mapSet, mapGet, hek, h, ih]
          · simp [mapSet, mapGet, hek, h, he, ih]

theorem mapGet_mem {κ α : Type} [BEq κ] [LawfulBEq κ] {m : List (κ × α)}
    {k : κ} {v : α} (h : mapGet m k = some v) : (k, v) ∈ m := by
  induction m with
  | nil => simp [mapGet] at h
  | cons e rest ih =>
      obtain ⟨ek, ev⟩ := e
      simp only [mapGet] at h
      split at h
      case isTrue hek =>
        obtain rfl : ev = v := Option.some.inj h
        obtain rfl : ek = k := beq_iff_eq.mp hek
        exact List.mem_cons_self _ _
      case isFalse hek => exact List.mem_cons_of_mem _ (ih h)

theorem mem_setAdd {s : List String} {x y : String} :
    y ∈ setAdd s x ↔ y ∈ s ∨ y = x := by
  unfold setAdd
  split
  case isTrue h =>
    constructor
    · exact fun hy => Or.inl hy
    · rintro (hy | rfl)
      · exact hy
      · exact List.mem_of_elem_eq_true h
  case isFalse h => simp [List.mem_append]

theorem nodup_setAdd {s : List String} {x : String} (h : s.Nodup) :
    (setAdd s x).Nodup := by
  unfold setAdd
  split
  case isTrue _ => exact h
  case isFalse hc =>
    refine List.Nodup.append h (List.nodup_singleton x) ?_
    intro a ha hax
    rw [List.mem_singleton] at hax
    subst hax
    exact hc (List.elem_eq_true_of_mem ha)

/-- C1: after linkInjections("styled", ["source.js"]) the call
unlinkInjections("styled", ["source.js"]) — and equally the variant with no
host list — hits the early guard, because the guard looks the injected scope
up among the host keys of the injection map.  Nothing is removed, the
registry is not invalidated and undefined is returned, even though the scope
was just linked: the link/unlink round trip does not restore the injection
topology, and the call is a no-op although "styled" was linked into a
host. -/
theorem c1_unlink_guard_bug :
    linkInjections "styled" (JsArg.arr [JsVal.str "source.js"]) c1st0 =
      (Except.ok ["javascript"], c1st1) ∧
    unlinkInjections "styled" (some (JsArg.arr [JsVal.str "source.js"])) c1st1 =
      (Except.ok none, c1st1) ∧
    unlinkInjections "styled" none c1st1 = (Except.ok none, c1st1) ∧
    mapGet c1st1.scopeNameToInjections "source.js" = some ["styled"] := by
  decide

/-- C2 counterexample: with the grammar registered and the language id fresh,
activateLanguage with priority asap resolves true although asap is not now,
refuting "true if and only if loadPriority is now". -/
theorem c2_asap_resolves_true :
    (activateLanguage "source.js" "javascript" Load.asap c2st).1 =
      Except.ok true ∧
    Load.asap ≠ Load.now := by
  decide

/-- C2 amended: for a registered scope and fresh language id the promise
resolves true exactly when the priority is now or asap (with asap the value
arrives only after the idle wait rather than blocking the caller); only
defer resolves false, and defer registers the two bindings and does nothing
else. -/
theorem c2_resolution_value (scopeName languageId : String) (load : Load)
    (st : RegistryState)
    (hg : st.scopeNameToRawGrammars.contains scopeName = true)
    (hf : mapGet st.languageIdToScopeName languageId = none) :
    (activateLanguage scopeName languageId load st).1 =
      Except.ok (load == Load.now || load == Load.asap) ∧
    (load = Load.defer →
      (activateLanguage scopeName languageId load st).2 = { st with
        languageIdToScopeName :=
          mapSet st.languageIdToScopeName languageId scopeName,
        scopeNameToLanguageId :=
          mapSet st.scopeNameToLanguageId scopeName languageId }) := by
  have hg' : scopeName ∈ st.scopeNameToRawGrammars :=
    List.mem_of_elem_eq_true hg
  cases load <;> simp [activateLanguage, hg', hf] <;> decide

theorem c2_resolution_value_witness :
    (activateLanguage "source.js" "javascript" Load.defer c2st).1 =
      Except.ok (Load.defer == Load.now || Load.defer == Load.asap) ∧
    (Load.defer = Load.defer →
      (activateLanguage "source.js" "javascript" Load.defer c2st).2 =
        { c2st with
          languageIdToScopeName :=
            mapSet c2st.languageIdToScopeName "javascript" "source.js",
          scopeNameToLanguageId :=
            mapSet c2st.scopeNameToLanguageId "source.js" "javascript" }) :=
  c2_resolution_value "source.js" "javascript" Load.defer c2st
    (by decide) (by decide)

/-- C3: two safeUpdateCM calls for the same editor instance while the first
activation is in flight.  The first caller's promise does resolve false and
no duplicate queue entry appears, but when the canceled first attempt
settles, the stale proceed continuation deletes the second call's resolver
registration and dequeues the re-queued instance without starting another
attempt: no binding is ever applied, the queue and activation slot end
empty, and the second caller's promise (id 1) can never settle. -/
theorem c3_second_request_dropped :
    c3afterFirst.2 = 0 ∧ c3afterSecond.2 = 1 ∧
    mapGet c3final.resolved 0 = some false ∧
    mapGet c3final.resolved 1 = none ∧
    c3final.appliedCount = 0 ∧
    c3final.queue = [] ∧
    c3final.current = none ∧
    mapGet c3final.resolverOf 0 = none := by
  decide

/-- C5 counterexample: the language id javascript is already bound, yet
activateLanguage for the unregistered scope source.missing fails with the
unknown-scope error, not the duplicate-binding error — the unknown-scope
guard runs first. -/
theorem c5_unknown_scope_precedence :
    mapHas c5st.languageIdToScopeName "javascript" = true ∧
    activateLanguage "source.missing" "javascript" Load.defer c5st =
      (Except.error (TmError.unknownScope "source.missing"), c5st) := by
  decide

/-- C5 amended: when the requested scope has a registered grammar, a
duplicate language id always fails with the duplicate-binding error, whether
the requested scope equals the bound one or not; and on every activateLanguage
failure (duplicate binding or unknown scope) the registry state is returned
unchanged. -/
theorem c5_duplicate_binding (scopeName languageId bound : String)
    (load : Load) (st : RegistryState)
    (hg : st.scopeNameToRawGrammars.contains scopeName = true)
    (hb : mapGet st.languageIdToScopeName languageId = some bound) :
    activateLanguage scopeName languageId load st =
      (Except.error (TmError.duplicateBinding languageId bound), st) ∧
    (∀ (s l : String) (ld : Load) (st' : RegistryState) (e : TmError)
        (r : RegistryState),
      activateLanguage s l ld st' = (Except.error e, r) → r = st') := by
  have hg' : scopeName ∈ st.scopeNameToRawGrammars :=
    List.mem_of_elem_eq_true hg
  constructor
  · simp [activateLanguage, hg', hb]
  · intro s l ld st' e r h
    unfold activateLanguage at h
    split at h
    · simp only [Prod.mk.injEq] at h
      exact h.2.symm
    · split at h
      · simp only [Prod.mk.injEq] at h
        exact h.2.symm
      · cases ld <;> simp at h

theorem c5_duplicate_binding_witness :
    activateLanguage "source.js" "javascript" Load.now c5st =
      (Except.error (TmError.duplicateBinding "javascript" "source.js"), c5st) :=
  (c5_duplicate_binding "source.js" "javascript" "source.js" Load.now c5st
    (by decide) (by decide)).1

/-- C7: loadLanguage for a language id with no binding, or whose bound scope
has no registered grammar source, returns the absent result with the state
untouched; the source path contains no throw, which the embedding reflects
by being a total function into a plain pair. -/
theorem c7_loadLanguage_unknown (languageId : String) (st : RegistryState)
    (h : mapGet st.languageIdToScopeName languageId = none ∨
      ∃ sc, mapGet st.languageIdToScopeName languageId = some sc ∧
        st.scopeNameToRawGrammars.contains sc = false) :
    loadLanguage languageId st = (none, st) := by
  unfold loadLanguage
  rcases h with h | ⟨sc, h1, h2⟩
  · rw [h]
  · rw [h1]
    have h3 : sc ∉ st.scopeNameToRawGrammars := contains_false_not_mem h2
    simp [h3]

theorem c7_loadLanguage_unknown_witness :
    loadLanguage "javascript" c7st = (none, c7st) :=
  c7_loadLanguage_unknown "javascript" c7st (Or.inl (by decide))

theorem linkFold_mem_affected (scopeName : String)
    (langMap : List (String × String)) (hosts : List String)
    (acc : List (String × List String) × List String) (x : String) :
    x ∈ (hosts.foldl (linkStep scopeName langMap) acc).2 ↔
      x ∈ acc.2 ∨ ∃ h ∈ hosts, mapGet langMap h = some x := by
  induction hosts generalizing acc with
  | nil => simp
  | cons a t ih =>
      rw [List.foldl_cons, ih]
      cases hm : mapGet langMap a with
      | none =>
          simp only [linkStep, hm, List.exists_mem_cons_iff]
          constructor
          · rintro (hx | hx)
            · exact Or.inl hx
            · exact Or.inr (Or.inr hx)
          · rintro (hx | hx | hx)
            · exact Or.inl hx
            · exact absurd hx.symm (by simp)
            · exact Or.inr hx
      | some lid =>
          simp only [linkStep, hm, mem_setAdd, List.exists_mem_cons_iff,
            Option.some.injEq]
          constructor
          · rintro ((hx | rfl) | hx)
            · exact Or.inl hx
            · exact Or.inr (Or.inl rfl)
            · exact Or.inr (Or.inr hx)
          · rintro (hx | rfl | hx)
            · exact Or.inl (Or.inl hx)
            · exact Or.inl (Or.inr rfl)
            · exact Or.inr hx

theorem linkFold_nodup (scopeName : String) (langMap : List (String × String))
    (hosts : List String) (acc : List (String × List String) × List String)
    (hnd : acc.2.Nodup) :
    (hosts.foldl (linkStep scopeName langMap) acc).2.Nodup := by
  induction hosts generalizing acc with
  | nil => exact hnd
  | cons a t ih =>
      rw [List.foldl_cons]
      apply ih
      cases hm : mapGet langMap a with
      | none =>
          have he : (linkStep scopeName langMap acc a).2 = acc.2 := by
            simp [linkStep, hm]
          rw [he]; exact hnd
      | some lid =>
          have he : (linkStep scopeName langMap acc a).2 = setAdd acc.2 lid := by
            simp [linkStep, hm]
          rw [he]; exact nodup_setAdd hnd

theorem linkStep_hasInj_self (scopeName : String)
    (langMap : List (String × String))
    (acc : List (String × List String) × List String) (scope : String) :
    HasInj (linkStep scopeName langMap acc scope).1 scopeName scope := by
  unfold HasInj linkStep
  cases hm : mapGet acc.1 scope with
  | none =>
      refine ⟨setAdd [] scopeName, ?_, by simp [mem_setAdd]⟩
      simp [hm, mapGet_mapSet]
  | some lst =>
      refine ⟨setAdd lst scopeName, ?_, by simp [mem_setAdd]⟩
      simp [hm, mapGet_mapSet]

theorem linkStep_hasInj_mono (scopeName : String)
    (langMap : List (String × String))
    (acc : List (String × List String) × List String) (scope h : String)
    (hh : HasInj acc.1 scopeName h) :
    HasInj (linkStep scopeName langMap acc scope).1 scopeName h := by
  by_cases he : h = scope
  · subst he; exact linkStep_hasInj_self scopeName langMap acc h
  · obtain ⟨lst, hg, hmem⟩ := hh
    refine ⟨lst, ?_, hmem⟩
    unfold linkStep
    cases hm : mapGet acc.1 scope <;>
      simp [hm, mapGet_mapSet, he, hg]

theorem linkFold_hasInj_mono (scopeName : String)
    (langMap : List (String × String)) (hosts : List String)
    (acc : List (String × List String) × List String) (h : String)
    (hh : HasInj acc.1 scopeName h) :
    HasInj ((hosts.foldl (linkStep scopeName langMap) acc).1) scopeName h := by
  induction hosts generalizing acc with
  | nil => exact hh
  | cons a t ih =>
      rw [List.foldl_cons]
      exact ih _ (linkStep_hasInj_mono scopeName langMap acc a h hh)

theorem linkFold_hasInj (scopeName : String)
    (langMap : List (String × String)) (hosts : List String)
    (acc : List (String × List String) × List String) :
    ∀ h ∈ hosts,
      HasInj ((hosts.foldl (linkStep scopeName langMap) acc).1) scopeName h := by
  induction hosts generalizing acc with
  | nil => intro h hh; cases hh
  | cons a t ih =>
      intro h hh
      rw [List.foldl_cons]
      rcases List.mem_cons.mp hh with rfl | ht
      · exact linkFold_hasInj_mono scopeName langMap t _ h
          (linkStep_hasInj_self scopeName langMap acc h)
      · exact ih _ h ht

/-- C6: linkInjections rejects a host list that is not an array of strings
with the invalid-argument error and no state change; on a valid list it adds
the scope name to every host's injection set (creating sets as needed),
purges the engine instance, and returns a duplicate-free list holding
exactly the language ids currently bound to the affected hosts. -/
theorem c6_linkInjections (scopeName : String) (arg : JsArg)
    (st : RegistryState) :
    (isStringArray arg = false →
      linkInjections scopeName arg st =
        (Except.error TmError.invalidArgument, st)) ∧
    (isStringArray arg = true →
      ∃ langs st',
        linkInjections scopeName arg st = (Except.ok langs, st') ∧
        st'.registryLive = false ∧
        (∀ h ∈ argStrings arg, HasInj st'.scopeNameToInjections scopeName h) ∧
        langs.Nodup ∧
        (∀ x, x ∈ langs ↔ ∃ h ∈ argStrings arg,
          mapGet st.scopeNameToLanguageId h = some x)) := by
  constructor
  · intro hinv
    simp [linkInjections, hinv]
  · intro hv
    have heq : linkInjections scopeName arg st =
        (Except.ok ((argStrings arg).foldl
            (linkStep scopeName st.scopeNameToLanguageId)
            (st.scopeNameToInjections, [])).2,
          { st with
            scopeNameToInjections := ((argStrings arg).foldl
              (linkStep scopeName st.scopeNameToLanguageId)
              (st.scopeNameToInjections, [])).1
            registryLive := false }) := by
      simp [linkInjections, hv]
    refine ⟨_, _, heq, rfl, ?_, ?_, ?_⟩
    · intro h hh
      exact linkFold_hasInj scopeName st.scopeNameToLanguageId
        (argStrings arg) (st.scopeNameToInjections, []) h hh
    · exact linkFold_nodup scopeName st.scopeNameToLanguageId
        (argStrings arg) (st.scopeNameToInjections, []) List.nodup_nil
    · intro x
      rw [linkFold_mem_affected]
      simp

theorem c6_linkInjections_witness :
    linkInjections "styled" JsArg.notArray c1st0 =
      (Except.error TmError.invalidArgument, c1st0) ∧
    (∃ langs st',
      linkInjections "styled" (JsArg.arr [JsVal.str "source.js"]) c1st0 =
        (Except.ok langs, st') ∧
      st'.registryLive = false ∧
      (∀ h ∈ argStrings (JsArg.arr [JsVal.str "source.js"]),
        HasInj st'.scopeNameToInjections "styled" h) ∧
      langs.Nodup ∧
      (∀ x, x ∈ langs ↔ ∃ h ∈ argStrings (JsArg.arr [JsVal.str "source.js"]),
        mapGet c1st0.scopeNameToLanguageId h = some x)) :=
  ⟨(c6_linkInjections "styled" JsArg.notArray c1st0).1 rfl,
    (c6_linkInjections "styled" (JsArg.arr [JsVal.str "source.js"]) c1st0).2 rfl⟩

/-- C4: the tokenizer closure.  At stream position 0 it tokenizes the whole
line with the carried rule stack, stores the updated rule stack, caches the
token list and consumes its head, returning the head token's classification
with the stream advanced to its end offset.  At a later position it consumes
exactly one cached token, advances the stream to that token's end offset and
returns its classification.  With the cache exhausted it advances the stream
to end of line and returns null, leaving the state as it is. -/
theorem c4_tokenizer {RS : Type} (tokenizeLine : String → RS → RS × List TmToken)
    (classify : List String → Option String) (stream : TStream)
    (state : HighlighterState RS) (t : TmToken) (rest : List TmToken) :
    (stream.pos = 0 → (tokenizeLine stream.str state.ruleStack).2 = t :: rest →
      0 < t.endIndex → t.endIndex ≤ stream.str.length →
      tokenizerStep tokenizeLine classify stream state =
        { result := classify t.scopes
          stream := { stream with pos := t.endIndex }
          state := { ruleStack := (tokenizeLine stream.str state.ruleStack).1
                     tokensCache := rest } }) ∧
    (stream.pos ≠ 0 → state.tokensCache = t :: rest →
      stream.pos < t.endIndex → t.endIndex ≤ stream.str.length →
      tokenizerStep tokenizeLine classify stream state =
        { result := classify t.scopes
          stream := { stream with pos := t.endIndex }
          state := { state with tokensCache := rest } }) ∧
    (stream.pos ≠ 0 → state.tokensCache = [] →
      tokenizerStep tokenizeLine classify stream state =
        { result := none
          stream := { stream with pos := stream.str.length }
          state := state }) := by
  refine ⟨?_, ?_, ?_⟩
  · intro h0 htoks hpos hlen
    simp [tokenizerStep, h0, htoks, eatWhilePos, hpos, Nat.min_eq_left hlen]
  · intro h0 hcache hpos hlen
    simp [tokenizerStep, h0, hcache, eatWhilePos, hpos, Nat.min_eq_left hlen]
  · intro h0 hcache
    simp [tokenizerStep, h0, hcache]

theorem c4_tokenizer_witness :
    tokenizerStep
        (fun (_ : String) (n : Nat) =>
          (n + 1, [TmToken.mk 3 ["keyword"], TmToken.mk 7 ["string"]]))
        (fun scopes => scopes.head?)
        (TStream.mk 0 "let x=1") (HighlighterState.mk 0 []) =
      { result := some "keyword"
        stream := TStream.mk 3 "let x=1"
        state := { ruleStack := 1, tokensCache := [TmToken.mk 7 ["string"]] } } :=
  (c4_tokenizer
    (fun (_ : String) (n : Nat) =>
      (n + 1, [TmToken.mk 3 ["keyword"], TmToken.mk 7 ["string"]]))
    (fun scopes => scopes.head?) (TStream.mk 0 "let x=1")
    (HighlighterState.mk 0 []) (TmToken.mk 3 ["keyword"])
    [TmToken.mk 7 ["string"]]).1 rfl rfl (by decide) (by decide)

theorem scanCmAux_take (scopes : List String) (n : Nat) (h1 : 1 ≤ n)
    (h2 : n ≤ scopes.length) :
    scanCmAux classifyEntry scopes n =
      Except.ok ((scopes.take n).reverse.findSome? classifyScope) := by
  induction n with
  | zero => exact absurd h1 (by omega)
  | succ m ih =>
      have hlt : m < scopes.length := by omega
      have hget : scopes[m]? = some scopes[m] := List.getElem?_eq_getElem hlt
      have htake : (scopes.take (m + 1)).reverse =
          scopes[m] :: (scopes.take m).reverse := by
        rw [List.take_succ, hget]
        simp
      cases m with
      | zero =>
          rw [show scanCmAux classifyEntry scopes 1 = classifyEntry scopes[0]?
              from rfl, hget, htake]
          cases hc : classifyScope scopes[0] <;>
            simp [classifyEntry, List.findSome?_cons, hc]
      | succ m' =>
          rw [show scanCmAux classifyEntry scopes (m' + 1 + 1) =
              (match classifyEntry scopes[m' + 1]? with
                | .error e => .error e
                | .ok (some t) => .ok (some t)
                | .ok none => scanCmAux classifyEntry scopes (m' + 1))
              from rfl, hget, htake]
          cases hc : classifyScope scopes[m' + 1] with
          | some t => simp [classifyEntry, hc, List.findSome?_cons]
          | none =>
              simp only [classifyEntry, hc, List.findSome?_cons]
              exact ih (by omega) (by omega)

theorem scanThemeAux_take (mf : Option String → Except JsError (Int × Int))
    (m : String → Int × Int) (hmf : ∀ s : String, mf (some s) = Except.ok (m s))
    (scopes : List String) (n : Nat) (h1 : 1 ≤ n) (h2 : n ≤ scopes.length) :
    scanThemeAux mf scopes n =
      Except.ok ((scopes.take n).reverse.findSome? fun s =>
        if (m s).1 > 0 then some (themedToken (m s).1 (m s).2) else none) := by
  induction n with
  | zero => exact absurd h1 (by omega)
  | succ k ih =>
      have hlt : k < scopes.length := by omega
      have hget : scopes[k]? = some scopes[k] := List.getElem?_eq_getElem hlt
      have htake : (scopes.take (k + 1)).reverse =
          scopes[k] :: (scopes.take k).reverse := by
        rw [List.take_succ, hget]
        simp
      cases k with
      | zero =>
          rw [show scanThemeAux mf scopes 1 =
              (match mf scopes[0]? with
                | .error e => .error e
                | .ok p => .ok (if p.1 > 0 then some (themedToken p.1 p.2)
                    else none)) from rfl, hget, hmf, htake]
          by_cases hp : (m scopes[0]).1 > 0 <;>
            simp [List.findSome?_cons, hp]
      | succ k' =>
          rw [show scanThemeAux mf scopes (k' + 1 + 1) =
              (match mf scopes[k' + 1]? with
                | .error e => .error e
                | .ok p =>
                    if p.1 > 0 then .ok (some (themedToken p.1 p.2))
                    else scanThemeAux mf scopes (k' + 1)) from rfl, hget, hmf,
            htake]
          by_cases hp : (m scopes[k' + 1]).1 > 0
          · simp [List.findSome?_cons, hp]
          · simp only [List.findSome?_cons, hp, if_neg, if_false]
            exact ih (by omega) (by omega)

/-- C8: both classification paths scan the scope stack from innermost to
outermost.  On a non-empty stack the theme-less path returns the first
non-null classifier result (null when no scope yields one), and the themed
path — for any total theme matcher — returns, for the first scope whose
best match has a positive foreground index, the class tm-<index> with the
fontStyle suffix (" em" for 1, " strong" for 2, nothing for 0), and null
when no scope has a positive foreground. -/
theorem c8_scan_order (scopes : List String)
    (mf : Option String → Except JsError (Int × Int)) (m : String → Int × Int)
    (hne : scopes ≠ [])
    (hmf : ∀ s : String, mf (some s) = Except.ok (m s)) :
    hlTmScopeToCmToken classifyEntry scopes = Except.ok (specCmScan scopes) ∧
    hlTmScopeToTmThemeToken mf scopes = Except.ok (specThemeScan m scopes) := by
  have hlen : 1 ≤ scopes.length := by
    cases scopes with
    | nil => exact absurd rfl hne
    | cons a t => simp
  constructor
  · rw [hlTmScopeToCmToken, scanCmAux_take scopes scopes.length hlen le_rfl,
      List.take_length]
    rfl
  · rw [hlTmScopeToTmThemeToken,
      scanThemeAux_take mf m hmf scopes scopes.length hlen le_rfl,
      List.take_length]
    rfl

theorem c8_scan_order_witness :
    hlTmScopeToCmToken classifyEntry ["source.ts", "string"] =
      Except.ok (some CmToken.String) ∧
    hlTmScopeToTmThemeToken (fun o => match o with
      | some s => Except.ok
          (if s == "string" then ((3 : Int), (1 : Int)) else (0, 0))
      | none => Except.error JsError.typeError) ["source.ts", "string"] =
      Except.ok (some "tm-3 em") :=
  have h := c8_scan_order ["source.ts", "string"]
    (fun o => match o with
      | some s => Except.ok
          (if s == "string" then ((3 : Int), (1 : Int)) else (0, 0))
      | none => Except.error JsError.typeError)
    (fun s => if s == "string" then ((3 : Int), (1 : Int)) else (0, 0))
    (by simp) (fun s => rfl)
  ⟨h.1.trans (by decide), h.2.trans (by decide)⟩

theorem scanCmAux_congr (f g : Option String → Except JsError (Option CmToken))
    (scopes : List String) (hfg : ∀ s : String, f (some s) = g (some s))
    (n : Nat) (h1 : 1 ≤ n) (h2 : n ≤ scopes.length) :
    scanCmAux f scopes n = scanCmAux g scopes n := by
  induction n with
  | zero => exact absurd h1 (by omega)
  | succ m ih =>
      have hlt : m < scopes.length := by omega
      have hget : scopes[m]? = some scopes[m] := List.getElem?_eq_getElem hlt
      cases m with
      | zero =>
          rw [show scanCmAux f scopes 1 = f scopes[0]? from rfl,
            show scanCmAux g scopes 1 = g scopes[0]? from rfl, hget, hfg]
      | succ m' =>
          rw [show scanCmAux f scopes (m' + 1 + 1) =
              (match f scopes[m' + 1]? with
                | .error e => .error e
                | .ok (some t) => .ok (some t)
                | .ok none => scanCmAux f scopes (m' + 1)) from rfl,
            show scanCmAux g scopes (m' + 1 + 1) =
              (match g scopes[m' + 1]? with
                | .error e => .error e
                | .ok (some t) => .ok (some t)
                | .ok none => scanCmAux g scopes (m' + 1)) from rfl,
            hget, hfg]
          cases hgc : g (some scopes[m' + 1]) with
          | error e => rfl
          | ok v =>
              cases v with
              | some t => rfl
              | none => exact ih (by omega) (by omega)

theorem scanThemeAux_congr (mf mg : Option String → Except JsError (Int × Int))
    (scopes : List String) (hfg : ∀ s : String, mf (some s) = mg (some s))
    (n : Nat) (h1 : 1 ≤ n) (h2 : n ≤ scopes.length) :
    scanThemeAux mf scopes n = scanThemeAux mg scopes n := by
  induction n with
  | zero => exact absurd h1 (by omega)
  | succ m ih =>
      have hlt : m < scopes.length := by omega
      have hget : scopes[m]? = some scopes[m] := List.getElem?_eq_getElem hlt
      cases m with
      | zero =>
          rw [show scanThemeAux mf scopes 1 =
              (match mf scopes[0]? with
                | .error e => .error e
                | .ok p => .ok (if p.1 > 0 then some (themedToken p.1 p.2)
                    else none)) from rfl,
            show scanThemeAux mg scopes 1 =
              (match mg scopes[0]? with
                | .error e => .error e
                | .ok p => .ok (if p.1 > 0 then some (themedToken p.1 p.2)
                    else none)) from rfl, hget, hfg]
      | succ m' =>
          rw [show scanThemeAux mf scopes (m' + 1 + 1) =
              (match mf scopes[m' + 1]? with
                | .error e => .error e
                | .ok p =>
                    if p.1 > 0 then .ok (some (themedToken p.1 p.2))
                    else scanThemeAux mf scopes (m' + 1)) from rfl,
            show scanThemeAux mg scopes (m' + 1 + 1) =
              (match mg scopes[m' + 1]? with
                | .error e => .error e
                | .ok p =>
                    if p.1 > 0 then .ok (some (themedToken p.1 p.2))
                    else scanThemeAux mg scopes (m' + 1)) from rfl, hget, hfg]
          cases hgc : mg (some scopes[m' + 1]) with
          | error e => rfl
          | ok p =>
              by_cases hp : p.1 > 0
              · simp [hp]
              · simp only [hp, if_neg, if_false]
                exact ih (by omega) (by omega)

/-- C10: both do-while loops run their body at least once.  On a non-empty
stack every classifier or matcher application happens at an in-bounds index
— the loop's result depends only on the classifier's values at actual scope
strings — while on the empty stack the single body run reads scopes[-1]
(undefined): the theme-less path then fails with the runtime type error of
undefined.split, and the themed path propagates whatever failure the theme
matcher raises on undefined. -/
theorem c10_do_while (scopes : List String)
    (f g : Option String → Except JsError (Option CmToken))
    (mf mg : Option String → Except JsError (Int × Int)) (e : JsError) :
    (scopes ≠ [] → (∀ s : String, f (some s) = g (some s)) →
      hlTmScopeToCmToken f scopes = hlTmScopeToCmToken g scopes) ∧
    (scopes ≠ [] → (∀ s : String, mf (some s) = mg (some s)) →
      hlTmScopeToTmThemeToken mf scopes = hlTmScopeToTmThemeToken mg scopes) ∧
    hlTmScopeToCmToken classifyEntry [] = Except.error JsError.typeError ∧
    (mf none = Except.error e →
      hlTmScopeToTmThemeToken mf [] = Except.error e) := by
  refine ⟨?_, ?_, rfl, ?_⟩
  · intro hne hfg
    have hlen : 1 ≤ scopes.length := by
      cases scopes with
      | nil => exact absurd rfl hne
      | cons a t => simp
    exact scanCmAux_congr f g scopes hfg scopes.length hlen le_rfl
  · intro hne hfg
    have hlen : 1 ≤ scopes.length := by
      cases scopes with
      | nil => exact absurd rfl hne
      | cons a t => simp
    exact scanThemeAux_congr mf mg scopes hfg scopes.length hlen le_rfl
  · intro hmf
    rw [show hlTmScopeToTmThemeToken mf [] =
        (match mf none with
          | .error e => .error e
          | .ok p => .ok (if p.1 > 0 then some (themedToken p.1 p.2)
              else none)) from rfl, hmf]

theorem c10_do_while_witness :
    hlTmScopeToCmToken classifyEntry ["comment"] =
      hlTmScopeToCmToken (fun o => match o with
        | none => Except.ok none
        | some s => Except.ok (classifyScope s)) ["comment"] ∧
    hlTmScopeToTmThemeToken (fun _ => Except.error JsError.typeError) [] =
      Except.error JsError.typeError :=
  have h := c10_do_while ["comment"] classifyEntry
    (fun o => match o with
      | none => Except.ok none
      | some s => Except.ok (classifyScope s))
    (fun _ => Except.error JsError.typeError)
    (fun _ => Except.error JsError.typeError) JsError.typeError
  ⟨h.1 (by simp) (fun s => rfl), h.2.2.2 rfl⟩

theorem mem_mapDelete {κ α : Type} [BEq κ] {m : List (κ × α)} {k : κ}
    {e : κ × α} (h : e ∈ mapDelete m k) : e ∈ m := by
  unfold mapDelete at h
  exact (List.mem_filter.mp h).1

theorem coherent_setKey {c : LruCache} (hc : Coherent c) (k : String) :
    Coherent (c.setKey k (classifyScope k)) := by
  intro e he
  simp only [LruCache.setKey] at he
  have he' := List.take_subset _ _ he
  rcases List.mem_cons.mp he' with rfl | hmem
  · rfl
  · exact hc e (mem_mapDelete hmem)

theorem coherent_getKey {c : LruCache} (hc : Coherent c) (k : String) :
    Coherent (c.getKey k).2 := by
  intro e he
  unfold LruCache.getKey at he
  cases hm : mapGet c.entries k with
  | none => rw [hm] at he; exact hc e he
  | some v =>
      rw [hm] at he
      simp only at he
      rcases List.mem_cons.mp he with rfl | hmem
      · exact hc _ (mapGet_mem hm)
      · exact hc e (mem_mapDelete hmem)

theorem max_getKey (c : LruCache) (k : String) : (c.getKey k).2.max = c.max := by
  unfold LruCache.getKey
  cases hm : mapGet c.entries k <;> rfl

theorem tmScopeToCmToken_val {c : LruCache} (hc : Coherent c)
    (hmax : c.max = 2000) (scope : String) :
    (tmScopeToCmToken scope c).1 = classifyScope scope ∧
    Coherent (tmScopeToCmToken scope c).2 ∧
    (tmScopeToCmToken scope c).2.max = 2000 := by
  unfold tmScopeToCmToken
  cases hk : c.hasKey scope with
  | true =>
      rw [if_pos rfl]
      have hk2 : (mapGet c.entries scope).isSome = true := hk
      obtain ⟨v, hv⟩ := Option.isSome_iff_exists.mp hk2
      have hval : v = classifyScope scope := hc (scope, v) (mapGet_mem hv)
      have hG : c.getKey scope =
          (some v,
            { c with entries := (scope, v) :: mapDelete c.entries scope }) := by
        unfold LruCache.getKey
        rw [hv]
      have hco := coherent_getKey hc scope
      rw [hG] at hco
      simp only [hG]
      exact ⟨hval, hco, hmax⟩
  | false =>
      rw [if_neg (by simp)]
      have hval : mapGet (c.setKey scope (classifyScope scope)).entries scope =
          some (classifyScope scope) := by
        simp only [LruCache.setKey, hmax]
        rw [show (2000 : Nat) = 1999 + 1 from rfl, List.take_succ_cons]
        simp [mapGet]
      have hG : (c.setKey scope (classifyScope scope)).getKey scope =
          (some (classifyScope scope),
            { entries := (scope, classifyScope scope) ::
                mapDelete (c.setKey scope (classifyScope scope)).entries scope
              max := (c.setKey scope (classifyScope scope)).max }) := by
        unfold LruCache.getKey
        rw [hval]
      have hco := coherent_getKey (coherent_setKey hc scope) scope
      rw [hG] at hco
      simp only [hG]
      refine ⟨trivial, hco, ?_⟩
      simp [LruCache.setKey, hmax]

/-- C9: under cache coherence — true of the fresh capacity-2000 cache and
preserved by every call — tmScopeToCmToken returns exactly the walk
classification of the scope string: the LRU cache never changes the computed
value, a cache-cold call equals a cache-warm call, and repeated calls with
the same string agree. -/
theorem c9_memoized (scope : String) (cache : LruCache) (hc : Coherent cache)
    (hmax : cache.max = 2000) :
    (tmScopeToCmToken scope cache).1 = classifyScope scope ∧
    Coherent (tmScopeToCmToken scope cache).2 ∧
    (tmScopeToCmToken scope (tmScopeToCmToken scope cache).2).1 =
      (tmScopeToCmToken scope cache).1 := by
  obtain ⟨h1, h2, h3⟩ := tmScopeToCmToken_val hc hmax scope
  refine ⟨h1, h2, ?_⟩
  rw [(tmScopeToCmToken_val h2 h3 scope).1, h1]

theorem c9_memoized_witness :
    (tmScopeToCmToken "comment" freshCache).1 = some CmToken.Comment ∧
    (tmScopeToCmToken "comment"
        (tmScopeToCmToken "comment" freshCache).2).1 =
      (tmScopeToCmToken "comment" freshCache).1 :=
  have h := c9_memoized "comment" freshCache
    (fun e he => absurd he (List.not_mem_nil e)) rfl
  ⟨h.1.trans (by decide), h.2.2⟩

end CT


